import Mathlib

/-!
Verification of the wetext-rs text-normalization core: a shallow embedding of
the token structural parser / reorderer (`src/token_parser.rs`), the language
detection and pipeline orchestration (`src/normalizer.rs`), and the control
flow of the FST applier (`src/text_normalizer.rs`), together with theorems
about the behaviour of these functions.

Strings are modelled as `List Char`; Rust's `HashMap` is modelled as an
association list queried through a lookup function (only `get`/`insert` are
used by the source, so lookup behaviour is the whole observable interface).
Loops over an index into a char vector are modelled as fuel-indexed structural
recursions over the remaining character list; fuel `length + 1` is always
sufficient because every loop iteration of the source advances the index.
-/

set_option linter.unusedVariables false

namespace WeText

/-- Strings are modelled as lists of characters. -/
abbrev Str := List Char

/-- Character list of a string literal. -/
def str (s : String) : Str := s.data

/-- The Unicode white-space set tested by Rust's `char::is_whitespace` and
trimmed by `str::trim`. -/
def rustWs (c : Char) : Bool :=
  let n := c.toNat
  (0x9 ≤ n && n ≤ 0xd) || n == 0x20 || n == 0x85 || n == 0xa0 || n == 0x1680 ||
  (0x2000 ≤ n && n ≤ 0x200a) || n == 0x2028 || n == 0x2029 || n == 0x202f ||
  n == 0x205f || n == 0x3000

/-- `char::is_ascii_alphabetic`. -/
def isAsciiAlpha (c : Char) : Bool :=
  (65 ≤ c.toNat && c.toNat ≤ 90) || (97 ≤ c.toNat && c.toNat ≤ 122)

/-- Characters accepted in entity and field names by the parser:
ASCII alphabetic or underscore (`is_ascii_alphabetic() || == '_'`). -/
def isNameChar (c : Char) : Bool := isAsciiAlpha c || c.toNat == 95

/-- Rust `str::trim`: drop Unicode whitespace from both ends. -/
def rustTrim (cs : List Char) : List Char :=
  ((cs.dropWhile rustWs).reverse.dropWhile rustWs).reverse

/-- Error type of the library (`src/error.rs`, `WeTextError`). -/
inductive WErr where
  | fstNotFound : String → WErr
  | fstLoadError : String → WErr
  | fstOperationError : String → WErr
  | invalidLanguage : String → WErr
  | invalidOperator : String → WErr
  | tokenParseError : String → WErr
  | ioError : String → WErr
deriving DecidableEq, Repr

instance {ε α : Type} [DecidableEq ε] [DecidableEq α] : DecidableEq (Except ε α) := by
  intro a b
  cases a <;> cases b
  case error.error x y =>
    exact if h : x = y then .isTrue (by rw [h]) else .isFalse (by simp [h])
  case error.ok x y => exact .isFalse (by simp)
  case ok.error x y => exact .isFalse (by simp)
  case ok.ok x y =>
    exact if h : x = y then .isTrue (by rw [h]) else .isFalse (by simp [h])

/-- Field key-value pairs of a token.  Models `HashMap<String, String>`:
insertion conses, lookup returns the most recent insertion, which is exactly
the observable behaviour of the map under `insert`/`get`. -/
abbrev Members := List (Str × Str)

/-- `HashMap::get`. -/
def lookupM (m : Members) (k : Str) : Option Str :=
  match m with
  | [] => none
  | (a, b) :: tl => if a = k then some b else lookupM tl k

/-- `HashMap::insert` (later insertions shadow earlier ones under `lookupM`). -/
def insertM (m : Members) (k v : Str) : Members := (k, v) :: m

/-- `Token` (src/token_parser.rs): entity-type name, field keys in parse
order, and key-value members. -/
structure Token where
  name : Str
  order : List Str
  members : Members
deriving DecidableEq, Repr

/-- `Token::new`. -/
def Token.new (name : Str) : Token := ⟨name, [], []⟩

/-- `Token::append`: push the key onto `order` and insert into `members`. -/
def Token.append (t : Token) (key value : Str) : Token :=
  { t with order := t.order ++ [key], members := insertM t.members key value }

/-- A canonical-order table, modelling `HashMap<String, Vec<String>>`
(only `get` is observable). -/
abbrev Orders := List (Str × List Str)

/-- `HashMap::get` on an order table. -/
def lookupO (os : Orders) (k : Str) : Option (List Str) :=
  match os with
  | [] => none
  | (a, b) :: tl => if a = k then some b else lookupO tl k

/-- The field order chosen by `Token::to_string_with_order`: the table entry
for the token's name when one exists and the token does not carry
`preserve_order: "true"`; otherwise the token's own parse order. -/
def chosenOrder (os : Orders) (t : Token) : List Str :=
  match lookupO os t.name with
  | some definedOrder =>
      if lookupM t.members (str "preserve_order") ≠ some (str "true") then definedOrder
      else t.order
  | none => t.order

/-- The key-value pairs emitted by `Token::to_string_with_order`: keys of the
chosen order that are present in `members`, with their values. -/
def emitPairs (os : Orders) (t : Token) : List (Str × Str) :=
  (chosenOrder os t).filterMap (fun k => (lookupM t.members k).map (fun v => (k, v)))

/-- One serialized field: ` key: "value"`. -/
def fieldStr (p : Str × Str) : Str :=
  ' ' :: p.1 ++ ':' :: ' ' :: '"' :: p.2 ++ ['"']

/-- `Token::to_string_with_order`: `name {` + fields + ` }`. -/
def Token.toStringWithOrder (t : Token) (os : Orders) : Str :=
  t.name ++ ' ' :: '{' :: ((emitPairs os t).map fieldStr).flatten ++ [' ', '}']

/-- The value scan of `TokenParser::parse`: consume characters up to the next
unescaped `"` (keeping backslashes in the value), returning the value and the
rest of the input (which starts at the terminating quote when one was found). -/
def scanVal : List Char → Bool → Str × List Char
  | [], _ => ([], [])
  | c :: rest, esc =>
    if !esc && c == '"' then ([], c :: rest)
    else
      let esc' := if esc then false else c == '\\'
      let (v, r) := scanVal rest esc'
      (c :: v, r)

/-- The escape state left by running the value scan over an entire string:
`none` if the scan would stop early at an unescaped quote, otherwise
`some finalEscapeState`. -/
def scanEnd : Str → Bool → Option Bool
  | [], esc => some esc
  | c :: rest, esc =>
    if !esc && c == '"' then none
    else scanEnd rest (if esc then false else c == '\\')

/-- The `':'`/space separator characters skipped between a key and its value. -/
def colonSpace (c : Char) : Bool := c == ':' || c == ' '

/-- Whitespace or the opening brace, skipped between an entity name and its
body. -/
def wsOrBrace (c : Char) : Bool := rustWs c || c == '{'

/-- Skip an optional quote character. -/
def skipQuote (cs : List Char) : List Char :=
  match cs with
  | '"' :: r => r
  | _ => cs

/-- The key-value body loop of `TokenParser::parse`, fuel-indexed.  Each
iteration skips whitespace, closes the entity on `}` or end of input, and
otherwise reads one key (skipping a single junk character when no key is
found), the `:`/space separator, an optional opening quote, the value and an
optional closing quote.  Fuel `length + 1` is always sufficient because every
iteration consumes at least one character. -/
def parseBodyF : Nat → List Char → Token → Token × List Char
  | 0, cs, t => (t, cs)
  | fuel + 1, cs, t =>
    match cs.dropWhile rustWs with
    | [] => (t, [])
    | c :: rest =>
      if c == '}' then (t, rest)
      else
        let key := (c :: rest).takeWhile isNameChar
        if key.isEmpty then
          parseBodyF fuel rest t
        else
          let afterSep := ((c :: rest).dropWhile isNameChar).dropWhile colonSpace
          let vr := scanVal (skipQuote afterSep) false
          parseBodyF fuel (skipQuote vr.2) (t.append key vr.1)

/-- The body loop with its canonical (always sufficient) fuel. -/
def parseBody (cs : List Char) (t : Token) : Token × List Char :=
  parseBodyF (cs.length + 1) cs t

/-- The outer entity loop of `TokenParser::parse`, fuel-indexed; `pos` is the
number of characters consumed so far (the Rust `index`).  Each iteration skips
whitespace, reads an entity name (erroring on an unexpected character),
skips whitespace and the opening brace, and parses the body. -/
def parseLoopF : Nat → Nat → List Char → Except WErr (List Token)
  | 0, _, _ => .ok []
  | fuel + 1, pos, cs =>
    match cs.dropWhile rustWs with
    | [] => .ok []
    | c :: rest =>
      let name := (c :: rest).takeWhile isNameChar
      if name.isEmpty then
        .error (.tokenParseError ("Unexpected character '" ++ String.singleton c ++
          "' at position " ++ toString (pos + (cs.length - (c :: rest).length))))
      else
        let body := ((c :: rest).dropWhile isNameChar).dropWhile wsOrBrace
        let tr := parseBody body (Token.new name)
        match parseLoopF fuel (pos + (cs.length - tr.2.length)) tr.2 with
        | .ok ts => .ok (tr.1 :: ts)
        | .error e => .error e

/-- The outer loop with its canonical (always sufficient) fuel. -/
def parseLoop (pos : Nat) (cs : List Char) : Except WErr (List Token) :=
  parseLoopF (cs.length + 1) pos cs

/-- `TokenParser::parse` on a character list. -/
def parseChars (cs : List Char) : Except WErr (List Token) :=
  parseLoop 0 cs

/-- `TokenParser::parse`. -/
def TokenParser.parse (input : String) : Except WErr (List Token) :=
  parseChars (str input)

/-- `Vec::join(" ")`. -/
def joinSp : List Str → Str
  | [] => []
  | [x] => x
  | x :: y :: xs => x ++ ' ' :: joinSp (y :: xs)

/-- `Language` (src/config.rs). -/
inductive Language where
  | auto | en | zh | ja
deriving DecidableEq, Repr

/-- `Operator` (src/config.rs). -/
inductive Operator where
  | tn | itn
deriving DecidableEq, Repr

/-- `TokenParser::tn_orders`: Chinese/Japanese TN field orders. -/
def tnOrders : Orders :=
  [(str "date", [str "year", str "month", str "day"]),
   (str "fraction", [str "denominator", str "numerator"]),
   (str "measure", [str "denominator", str "numerator", str "value"]),
   (str "money", [str "value", str "currency"]),
   (str "time", [str "noon", str "hour", str "minute", str "second"])]

/-- `TokenParser::en_tn_orders`: English TN field orders. -/
def enTnOrders : Orders :=
  [(str "date", [str "preserve_order", str "text", str "day", str "month", str "year"]),
   (str "money", [str "integer_part", str "fractional_part", str "quantity",
     str "currency_maj"])]

/-- `TokenParser::itn_orders`: ITN field orders. -/
def itnOrders : Orders :=
  [(str "date", [str "year", str "month", str "day"]),
   (str "fraction", [str "sign", str "numerator", str "denominator"]),
   (str "measure", [str "numerator", str "denominator", str "value"]),
   (str "money", [str "currency", str "value", str "decimal"]),
   (str "time", [str "hour", str "minute", str "second", str "noon"])]

/-- `TokenParser::new`: the order table selected for a language/operator. -/
def TokenParser.newOrders (lang : Language) (op : Operator) : Orders :=
  match lang, op with
  | .en, .tn => enTnOrders
  | .zh, .tn | .ja, .tn => tnOrders
  | .zh, .itn | .ja, .itn => itnOrders
  | _, _ => []

/-- `TokenParser::reorder`: empty (after trim) input yields the empty string;
input without `{` is returned unchanged; otherwise parse and re-serialize,
falling back to the original input when parsing fails. -/
def TokenParser.reorder (os : Orders) (input : String) : Except WErr String :=
  if (rustTrim (str input)).isEmpty then .ok ""
  else if !((str input).contains '{') then .ok input
  else
    match parseChars (str input) with
    | .ok tokens => .ok ⟨joinSp (tokens.map (fun t => t.toStringWithOrder os))⟩
    | .error _ => .ok input

/-! ## The FST applier (src/text_normalizer.rs)

The weighted automata and the `rustfst` primitives applied to them (compose,
shortest path, linear-path decoding) are opaque external collaborators; they
are modelled as oracle functions carried by a loaded automaton, while the
applier's own control flow is embedded from the source. -/

/-- A result automaton of a library operation; the applier's control flow
inspects only its state count. -/
structure RFst where
  numStates : Nat

/-- A loaded FST together with the opaque library primitives applied to it:
composition with the acceptor of the input's UTF-8 byte labels, shortest
path, and linear-path decoding to output labels. -/
structure FstLib where
  compose : List Nat → Except String RFst
  shortestPath : RFst → Except String RFst
  decodeLinear : RFst → Except String (List Nat)

/-- The UTF-8 bytes of the input, used as acceptor labels. -/
def utf8Bytes (s : String) : List Nat :=
  s.toUTF8.toList.map (fun b => b.toNat)

/-- `char::from_u32`: `some` exactly on Unicode scalar values. -/
def charFromU32 (n : Nat) : Option Char :=
  if h : n.isValidChar then some ⟨⟨⟨n, h.casesOn (by omega) (by omega)⟩⟩, h⟩ else none

/-- `FstTextNormalizer::fst_to_string`: decode the winning path's output
labels, as code points when any non-epsilon label exceeds 255, otherwise as
UTF-8 bytes (epsilon label 0 is dropped in both modes). -/
def fstToString (lib : FstLib) (f : RFst) : Except WErr String :=
  if f.numStates = 0 then .ok ""
  else
    match lib.decodeLinear f with
    | .error e => .error (.fstOperationError e)
    | .ok olabels =>
      if olabels.any (fun l => decide (l ≠ 0) && decide (l > 255)) then
        .ok ⟨olabels.filterMap (fun l => if l = 0 then none else charFromU32 l)⟩
      else
        match String.fromUTF8?
          ⟨((olabels.filterMap (fun l => if l = 0 then none else some l)).map
            (fun l => UInt8.ofNat (l % 256))).toArray⟩ with
        | some s => .ok s
        | none => .error (.fstOperationError "Invalid UTF-8 in FST output")

/-- `FstTextNormalizer::normalize`: empty input yields empty output; compose
the input acceptor with the automaton; an empty composition or an empty
shortest-path result falls back to the original input; otherwise decode the
shortest path. -/
def fstNormalize (lib : FstLib) (input : String) : Except WErr String :=
  if input.isEmpty then .ok ""
  else
    match lib.compose (utf8Bytes input) with
    | .error e => .error (.fstOperationError ("compose failed: " ++ e))
    | .ok composed =>
      if composed.numStates = 0 then .ok input
      else
        match lib.shortestPath composed with
        | .error e => .error (.fstOperationError ("shortest_path failed: " ++ e))
        | .ok best =>
          if best.numStates = 0 then .ok input
          else fstToString lib best

/-! ## The pipeline orchestrator (src/normalizer.rs) -/

/-- The outcome of loading an automaton file: missing, malformed, or loaded. -/
inductive LoadRes where
  | notFound
  | loadError (msg : String)
  | ok (lib : FstLib)

/-- The deployment environment: what loading each logical path yields. -/
abbrev Env := String → LoadRes

/-- `FstCache::get_or_load` composed with `FstTextNormalizer::from_file`:
a missing file is `FstNotFound`, an unreadable one `FstLoadError`.
Memoization does not change results (loading is deterministic), so the cache
is modelled by the pure load function. -/
def getOrLoad (env : Env) (p : String) : Except WErr FstLib :=
  match env p with
  | .notFound => .error (.fstNotFound p)
  | .loadError m => .error (.fstLoadError m)
  | .ok lib => .ok lib

/-- `NormalizerConfig` (src/config.rs). -/
structure NormalizerConfig where
  lang : Language := .auto
  operator : Operator := .tn
  fixContractions : Bool := false
  traditionalToSimple : Bool := false
  fullToHalf : Bool := false
  removeInterjections : Bool := false
  removePuncts : Bool := false
  tagOov : Bool := false
  enable0To9 : Bool := false
  removeErhua : Bool := false

/-- Hiragana (U+3040 to U+309F) or Katakana (U+30A0 to U+30FF). -/
def isKana (c : Char) : Bool :=
  (0x3040 ≤ c.toNat && c.toNat ≤ 0x309f) || (0x30a0 ≤ c.toNat && c.toNat ≤ 0x30ff)

/-- CJK Unified Ideographs (U+4E00 to U+9FFF). -/
def isCjk (c : Char) : Bool := 0x4e00 ≤ c.toNat && c.toNat ≤ 0x9fff

/-- `char::is_ascii_digit`. -/
def isAsciiDigit (c : Char) : Bool := 48 ≤ c.toNat && c.toNat ≤ 57

/-- The character scan of `Normalizer::detect_language`: `none` when a
Hiragana/Katakana character triggers the early Japanese return, otherwise the
final `has_cjk`/`has_alpha` flags. -/
def detectScan : List Char → Bool → Bool → Option (Bool × Bool)
  | [], hasCjk, hasAlpha => some (hasCjk, hasAlpha)
  | c :: rest, hasCjk, hasAlpha =>
    if isKana c then none
    else detectScan rest (hasCjk || isCjk c) (hasAlpha || isAsciiAlpha c)

/-- `Normalizer::detect_language`. -/
def detectLanguage (s : String) : Language :=
  match detectScan (str s) false false with
  | none => .ja
  | some (hasCjk, hasAlpha) =>
    if hasCjk then .zh
    else if !s.isEmpty && !hasAlpha then .zh
    else .en

/-- `Normalizer::should_normalize`: TN needs work when the text has an ASCII
digit, or erhua removal is on and an erhua character occurs; ITN whenever the
text is non-empty. -/
def shouldNormalize (text : String) (op : Operator) (removeErhua : Bool) : Bool :=
  match op with
  | .tn =>
    (str text).any isAsciiDigit ||
      (removeErhua && ((str text).contains '儿' || (str text).contains '兒'))
  | .itn => !text.isEmpty

/-- `Normalizer::preprocess`: trim, then optionally apply the
traditional-to-simplified automaton. -/
def preprocess (env : Env) (cfg : NormalizerConfig) (text : String) : Except WErr String :=
  if cfg.traditionalToSimple then
    match getOrLoad env "traditional_to_simple.fst" with
    | .error e => .error e
    | .ok lib => fstNormalize lib ⟨rustTrim (str text)⟩
  else .ok ⟨rustTrim (str text)⟩

/-- One optional postprocessing stage. -/
def postStage (env : Env) (enabled : Bool) (path : String) (text : String) :
    Except WErr String :=
  if enabled then
    match getOrLoad env path with
    | .error e => .error e
    | .ok lib => fstNormalize lib text
  else .ok text

/-- `Normalizer::postprocess`: the four optional automata in fixed order,
then a trim. -/
def postprocess (env : Env) (cfg : NormalizerConfig) (text : String) :
    Except WErr String := do
  let t1 ← postStage env cfg.fullToHalf "full_to_half.fst" text
  let t2 ← postStage env cfg.removeInterjections "remove_interjections.fst" t1
  let t3 ← postStage env cfg.removePuncts "remove_puncts.fst" t2
  let t4 ← postStage env cfg.tagOov "tag_oov.fst" t3
  pure ⟨rustTrim (str t4)⟩

/-- Rust `Debug` rendering of a language value (`format!("\x7b:?\x7d", lang)`). -/
def langDebug : Language → String
  | .auto => "Auto"
  | .en => "En"
  | .zh => "Zh"
  | .ja => "Ja"

/-- The tagger path selection of `Normalizer::tag`; the uncovered
language/operator pairs produce `InvalidLanguage`. -/
def tagPath (lang : Language) (cfg : NormalizerConfig) : Except WErr String :=
  match lang, cfg.operator with
  | .en, .tn => .ok "en/tn/tagger.fst"
  | .zh, .tn => .ok "zh/tn/tagger.fst"
  | .zh, .itn =>
    .ok (if cfg.enable0To9 then "zh/itn/tagger_enable_0_to_9.fst" else "zh/itn/tagger.fst")
  | .ja, .tn => .ok "ja/tn/tagger.fst"
  | .ja, .itn =>
    .ok (if cfg.enable0To9 then "ja/itn/tagger_enable_0_to_9.fst" else "ja/itn/tagger.fst")
  | lang, _ => .error (.invalidLanguage (langDebug lang))

/-- `Normalizer::tag`: select, load and apply the tagger, then trim. -/
def tag (env : Env) (cfg : NormalizerConfig) (text : String) (lang : Language) :
    Except WErr String := do
  let path ← tagPath lang cfg
  let lib ← getOrLoad env path
  let r ← fstNormalize lib text
  pure ⟨rustTrim (str r)⟩

/-- The verbalizer path selection of `Normalizer::verbalize`. -/
def verbalizePath (lang : Language) (cfg : NormalizerConfig) : Except WErr String :=
  match lang, cfg.operator with
  | .en, .tn => .ok "en/tn/verbalizer.fst"
  | .zh, .tn =>
    .ok (if cfg.removeErhua then "zh/tn/verbalizer_remove_erhua.fst" else "zh/tn/verbalizer.fst")
  | .zh, .itn => .ok "zh/itn/verbalizer.fst"
  | .ja, .tn => .ok "ja/tn/verbalizer.fst"
  | .ja, .itn => .ok "ja/itn/verbalizer.fst"
  | lang, _ => .error (.invalidLanguage (langDebug lang))

/-- `Normalizer::verbalize`: select, load and apply the verbalizer, then
trim. -/
def verbalize (env : Env) (cfg : NormalizerConfig) (text : String) (lang : Language) :
    Except WErr String := do
  let path ← verbalizePath lang cfg
  let lib ← getOrLoad env path
  let r ← fstNormalize lib text
  pure ⟨rustTrim (str r)⟩

/-- `Normalizer::normalize_with_config`.  The contraction expander is an
external collaborator (a table-driven text filter) and is passed in as the
oracle `fixc`; the source consults it only when the toggle is on and the text
contains an apostrophe. -/
def normalizeWithConfig (env : Env) (fixc : String → String) (cfg : NormalizerConfig)
    (text : String) : Except WErr String := do
  let t1 := if cfg.fixContractions && (str text).contains '\'' then fixc text else text
  let t2 ← preprocess env cfg t1
  let lang := if cfg.lang = .auto then detectLanguage t2 else cfg.lang
  let t5 ←
    if shouldNormalize t2 cfg.operator cfg.removeErhua then do
      let lang := if lang = .en ∧ cfg.operator = .itn then .zh else lang
      let t3 ← tag env cfg t2 lang
      let t4 ← TokenParser.reorder (TokenParser.newOrders lang cfg.operator) t3
      verbalize env cfg t4 lang
    else pure t2
  postprocess env cfg t5

/-! ## Derived definitions used by the theorems -/

/-- The detection rule as the specification states it: Japanese on any
Hiragana/Katakana code point; else Chinese on any CJK Unified Ideograph;
else Chinese for non-empty text without ASCII letters; else English. -/
def detectLanguageSpec (s : String) : Language :=
  if (str s).any isKana then .ja
  else if (str s).any isCjk then .zh
  else if !s.isEmpty && !((str s).any isAsciiAlpha) then .zh
  else .en

/-- A trivial automaton library whose composition is always empty. -/
def constLib : FstLib :=
  ⟨fun _ => .ok ⟨0⟩, fun f => .ok f, fun _ => .ok []⟩

/-- The structural invariant of parsed tokens: a key is listed in `order`
exactly when it is present in `members`. -/
def TokenInv (t : Token) : Prop :=
  (∀ k ∈ t.order, (lookupM t.members k).isSome = true) ∧
  (∀ p ∈ t.members, p.1 ∈ t.order)

instance (t : Token) : Decidable (TokenInv t) := by
  unfold TokenInv
  infer_instance

/-- A deployment in which every artifact load succeeds. -/
def EnvOk (env : Env) : Prop := ∀ p, ∃ lib, env p = .ok lib

/-- A deployment where every load yields the trivial library. -/
def envAllOk : Env := fun _ => .ok constLib

/-- Whether an error value is `InvalidLanguage`. -/
def isInvErr : WErr → Bool
  | .invalidLanguage _ => true
  | _ => false

/-- Whether a result is the `InvalidLanguage` error. -/
def isInvalidRes {α : Type} : Except WErr α → Bool
  | .error e => isInvErr e
  | .ok _ => false

/-- A wellformed name or key: non-empty, all name characters. -/
def GoodName (n : Str) : Prop := n ≠ [] ∧ n.all isNameChar = true

/-- Keys listed in a token's order are wellformed names. -/
def GoodKeys (t : Token) : Prop := ∀ k ∈ t.order, GoodName k

/-- Fold `Token.append` over a pair list (what re-parsing a serialized body
does to a fresh token). -/
def appendAll (t : Token) : List (Str × Str) → Token
  | [] => t
  | (k, v) :: tl => appendAll (t.append k v) tl

/-- The last binding of a key in a pair list. -/
def lookupLast (l : List (Str × Str)) (k : Str) : Option Str :=
  match l with
  | [] => none
  | (a, b) :: tl =>
    match lookupLast tl k with
    | some v => some v
    | none => if a = k then some b else none

/-- The token obtained by re-parsing a token's serialization: a fresh token
with the same name, fed the emitted pairs in order. -/
def roundTok (os : Orders) (t : Token) : Token :=
  appendAll (Token.new t.name) (emitPairs os t)

/-- A serializable pair: wellformed key, and a value whose full scan ends
outside an escape (no dangling backslash). -/
def GoodPair (p : Str × Str) : Prop :=
  GoodName p.1 ∧ scanEnd p.2 false = some false

/-- A token whose serialization re-parses: wellformed name and serializable
emitted pairs. -/
def GoodSer (os : Orders) (t : Token) : Prop :=
  GoodName t.name ∧ ∀ p ∈ emitPairs os t, GoodPair p

/-- Every key of every table entry is a wellformed name. -/
def OrdersGood (os : Orders) : Prop := ∀ e ∈ os, ∀ k ∈ e.2, GoodName k

instance (n : Str) : Decidable (GoodName n) := by
  unfold GoodName
  infer_instance

instance (os : Orders) : Decidable (OrdersGood os) := by
  unfold OrdersGood
  infer_instance

/-! ## Character-class and scanning lemmas -/

lemma isNameChar_ranges {c : Char} (h : isNameChar c = true) :
    (65 ≤ c.toNat ∧ c.toNat ≤ 90) ∨ (97 ≤ c.toNat ∧ c.toNat ≤ 122) ∨ c.toNat = 95 := by
  simp only [isNameChar, isAsciiAlpha, Bool.or_eq_true, Bool.and_eq_true,
    decide_eq_true_eq, beq_iff_eq] at h
  omega

lemma isNameChar_not_ws {c : Char} (h : isNameChar c = true) : rustWs c = false := by
  have hr := isNameChar_ranges h
  simp only [rustWs, Bool.or_eq_false_iff, Bool.and_eq_false_iff, beq_eq_false_iff_ne,
    ne_eq, decide_eq_false_iff_not]
  omega

lemma toNat_eq_of_char_eq {c d : Char} (h : c = d) : c.toNat = d.toNat := by rw [h]

lemma isNameChar_ne {c d : Char} (h : isNameChar c = true)
    (hd : isNameChar d = false) : (c == d) = false := by
  rw [beq_eq_false_iff_ne]
  intro he
  rw [he] at h
  rw [h] at hd
  exact Bool.noConfusion hd

lemma isNameChar_not_rbrace {c : Char} (h : isNameChar c = true) : (c == '}') = false :=
  isNameChar_ne h (by decide)

/-- Every `dropWhile` is no longer than its input. -/
lemma length_dropWhile_le (p : Char → Bool) (l : List Char) :
    (l.dropWhile p).length ≤ l.length := by
  induction l with
  | nil => simp
  | cons a t ih =>
    rw [List.dropWhile_cons]
    split
    · simp only [List.length_cons]; omega
    · simp

lemma skipQuote_length_le (cs : List Char) : (skipQuote cs).length ≤ cs.length := by
  unfold skipQuote
  split <;> simp

lemma scanVal_length_le : ∀ (cs : List Char) (esc : Bool),
    (scanVal cs esc).2.length ≤ cs.length := by
  intro cs
  induction cs with
  | nil => intro esc; simp [scanVal]
  | cons c rest ih =>
    intro esc
    simp only [scanVal]
    split
    · simp
    · have := ih (if esc then false else c == '\\')
      simp only []
      exact Nat.le_trans this (Nat.le_succ _)

lemma parseBodyF_length_le : ∀ (fuel : Nat) (cs : List Char) (t : Token),
    (parseBodyF fuel cs t).2.length ≤ cs.length := by
  intro fuel
  induction fuel with
  | zero => intro cs t; simp [parseBodyF]
  | succ g ih =>
    intro cs t
    cases hdw : cs.dropWhile rustWs with
    | nil =>
      simp [parseBodyF, hdw]
    | cons c rest =>
      have hlen : rest.length + 1 ≤ cs.length := by
        have h0 : (c :: rest).length ≤ cs.length := by
          rw [← hdw]; exact length_dropWhile_le _ _
        simpa using h0
      simp only [parseBodyF, hdw]
      split
      · dsimp only
        omega
      · split
        · have := ih rest t
          omega
        · rename_i hc hkey
          set cs2 := (c :: rest).dropWhile isNameChar with hcs2
          have h2 : cs2.length ≤ rest.length + 1 := by
            have := length_dropWhile_le isNameChar (c :: rest)
            simpa using this
          have h3 : (cs2.dropWhile colonSpace).length ≤ cs2.length := length_dropWhile_le _ _
          have h4 := skipQuote_length_le (cs2.dropWhile colonSpace)
          have h5 := scanVal_length_le (skipQuote (cs2.dropWhile colonSpace)) false
          have h6 := skipQuote_length_le (scanVal (skipQuote (cs2.dropWhile colonSpace)) false).2
          have h7 := ih (skipQuote (scanVal (skipQuote (cs2.dropWhile colonSpace)) false).2)
            (t.append ((c :: rest).takeWhile isNameChar)
              (scanVal (skipQuote (cs2.dropWhile colonSpace)) false).1)
          omega

lemma parseBody_length_le (cs : List Char) (t : Token) :
    (parseBody cs t).2.length ≤ cs.length :=
  parseBodyF_length_le _ cs t

/-- After a non-empty key, the remaining input is strictly shorter. -/
lemma dropWhile_name_lt {cs : List Char} (h : (cs.takeWhile isNameChar).isEmpty = false) :
    (cs.dropWhile isNameChar).length < cs.length := by
  have hsplit := List.takeWhile_append_dropWhile (p := isNameChar) (l := cs)
  have := congrArg List.length hsplit
  simp only [List.length_append] at this
  have hne : (cs.takeWhile isNameChar).length ≠ 0 := by
    intro h0
    rw [List.length_eq_zero] at h0
    rw [h0] at h
    simp [List.isEmpty] at h
  omega

lemma parseBodyF_congr : ∀ (f1 f2 : Nat) (cs : List Char) (t : Token),
    cs.length < f1 → cs.length < f2 → parseBodyF f1 cs t = parseBodyF f2 cs t := by
  intro f1
  induction f1 with
  | zero => intro f2 cs t h1 h2; omega
  | succ g1 ih =>
    intro f2 cs t h1 h2
    cases f2 with
    | zero => omega
    | succ g2 =>
      cases hdw : cs.dropWhile rustWs with
      | nil =>
        simp [parseBodyF, hdw]
      | cons c rest =>
        have hlen : rest.length + 1 ≤ cs.length := by
          have h0 : (c :: rest).length ≤ cs.length := by
            rw [← hdw]; exact length_dropWhile_le _ _
          simpa using h0
        simp only [parseBodyF, hdw]
        split
        · rfl
        · split
          · exact ih g2 rest t (by omega) (by omega)
          · rename_i hc hkey
            set cs2 := (c :: rest).dropWhile isNameChar with hcs2
            have hk : ((c :: rest).takeWhile isNameChar).isEmpty = false := by
              simpa using hkey
            have h2 : cs2.length < rest.length + 1 := by
              have := dropWhile_name_lt hk
              simpa using this
            have h3 : (cs2.dropWhile colonSpace).length ≤ cs2.length := length_dropWhile_le _ _
            have h4 := skipQuote_length_le (cs2.dropWhile colonSpace)
            have h5 := scanVal_length_le (skipQuote (cs2.dropWhile colonSpace)) false
            have h6 := skipQuote_length_le (scanVal (skipQuote (cs2.dropWhile colonSpace)) false).2
            exact ih g2 _ _ (by omega) (by omega)

/-- The one-step unfolding of `parseBody` (fuel is irrelevant beyond the
input length). -/
lemma parseBody_eq (cs : List Char) (t : Token) :
    parseBody cs t =
      match cs.dropWhile rustWs with
      | [] => (t, [])
      | c :: rest =>
        if c == '}' then (t, rest)
        else
          let key := (c :: rest).takeWhile isNameChar
          if key.isEmpty then parseBody rest t
          else
            let afterSep := ((c :: rest).dropWhile isNameChar).dropWhile colonSpace
            let vr := scanVal (skipQuote afterSep) false
            parseBody (skipQuote vr.2) (t.append key vr.1) := by
  show parseBodyF (cs.length + 1) cs t = _
  cases hdw : cs.dropWhile rustWs with
  | nil =>
    simp [parseBodyF, hdw]
  | cons c rest =>
    have hlen : rest.length + 1 ≤ cs.length := by
      have h0 : (c :: rest).length ≤ cs.length := by
        rw [← hdw]; exact length_dropWhile_le _ _
      simpa using h0
    simp only [parseBodyF, hdw]
    split
    · rfl
    · split
      · exact parseBodyF_congr _ _ rest t (by omega) (by omega)
      · rename_i hc hkey
        have hk : ((c :: rest).takeWhile isNameChar).isEmpty = false := by simpa using hkey
        set cs2 := (c :: rest).dropWhile isNameChar with hcs2
        have h2 : cs2.length < rest.length + 1 := by
          have := dropWhile_name_lt hk
          simpa using this
        have h3 : (cs2.dropWhile colonSpace).length ≤ cs2.length := length_dropWhile_le _ _
        have h4 := skipQuote_length_le (cs2.dropWhile colonSpace)
        have h5 := scanVal_length_le (skipQuote (cs2.dropWhile colonSpace)) false
        have h6 := skipQuote_length_le (scanVal (skipQuote (cs2.dropWhile colonSpace)) false).2
        exact parseBodyF_congr _ _ _ _ (by omega) (by omega)

lemma parseLoopF_congr : ∀ (f1 f2 pos : Nat) (cs : List Char),
    cs.length < f1 → cs.length < f2 → parseLoopF f1 pos cs = parseLoopF f2 pos cs := by
  intro f1
  induction f1 with
  | zero => intro f2 pos cs h1 h2; omega
  | succ g1 ih =>
    intro f2 pos cs h1 h2
    cases f2 with
    | zero => omega
    | succ g2 =>
      cases hdw : cs.dropWhile rustWs with
      | nil =>
        simp [parseLoopF, hdw]
      | cons c rest =>
        have hlen : rest.length + 1 ≤ cs.length := by
          have h0 : (c :: rest).length ≤ cs.length := by
            rw [← hdw]; exact length_dropWhile_le _ _
          simpa using h0
        simp only [parseLoopF, hdw]
        split
        · rfl
        · rename_i hkey
          have hk : ((c :: rest).takeWhile isNameChar).isEmpty = false := by simpa using hkey
          set body := ((c :: rest).dropWhile isNameChar).dropWhile wsOrBrace with hbody
          have h2 : ((c :: rest).dropWhile isNameChar).length < rest.length + 1 := by
            have := dropWhile_name_lt hk
            simpa using this
          have h3 : body.length ≤ ((c :: rest).dropWhile isNameChar).length :=
            length_dropWhile_le _ _
          have h4 := parseBody_length_le body (Token.new ((c :: rest).takeWhile isNameChar))
          rw [ih g2 _ _ (by omega) (by omega)]

/-- The one-step unfolding of `parseLoop`. -/
lemma parseLoop_eq (pos : Nat) (cs : List Char) :
    parseLoop pos cs =
      match cs.dropWhile rustWs with
      | [] => .ok []
      | c :: rest =>
        let name := (c :: rest).takeWhile isNameChar
        if name.isEmpty then
          .error (.tokenParseError ("Unexpected character '" ++ String.singleton c ++
            "' at position " ++ toString (pos + (cs.length - (c :: rest).length))))
        else
          let body := ((c :: rest).dropWhile isNameChar).dropWhile wsOrBrace
          let tr := parseBody body (Token.new name)
          match parseLoop (pos + (cs.length - tr.2.length)) tr.2 with
          | .ok ts => .ok (tr.1 :: ts)
          | .error e => .error e := by
  show parseLoopF (cs.length + 1) pos cs = _
  cases hdw : cs.dropWhile rustWs with
  | nil =>
    simp [parseLoopF, hdw]
  | cons c rest =>
    have hlen : rest.length + 1 ≤ cs.length := by
      have h0 : (c :: rest).length ≤ cs.length := by
        rw [← hdw]; exact length_dropWhile_le _ _
      simpa using h0
    simp only [parseLoopF, hdw]
    split
    · rfl
    · rename_i hkey
      have hk : ((c :: rest).takeWhile isNameChar).isEmpty = false := by simpa using hkey
      have h2 : ((c :: rest).dropWhile isNameChar).length < rest.length + 1 := by
        have := dropWhile_name_lt hk
        simpa using this
      have h3 := length_dropWhile_le wsOrBrace ((c :: rest).dropWhile isNameChar)
      have h4 := parseBody_length_le
        (((c :: rest).dropWhile isNameChar).dropWhile wsOrBrace)
        (Token.new ((c :: rest).takeWhile isNameChar))
      rw [parseLoopF_congr cs.length
        ((parseBody (((c :: rest).dropWhile isNameChar).dropWhile wsOrBrace)
          (Token.new ((c :: rest).takeWhile isNameChar))).2.length + 1) _ _
        (by omega) (by omega)]
      rfl

/-! ## Boundary and trim lemmas -/

lemma takeWhile_append_boundary {p : Char → Bool} (xs : List Char) (c : Char) (r : List Char)
    (hxs : ∀ x ∈ xs, p x = true) (hc : p c = false) :
    (xs ++ c :: r).takeWhile p = xs ∧ (xs ++ c :: r).dropWhile p = c :: r := by
  induction xs with
  | nil => simp [List.takeWhile_cons, List.dropWhile_cons, hc]
  | cons a tl ih =>
    have ha : p a = true := hxs a (by simp)
    have ih' := ih (fun x hx => hxs x (by simp [hx]))
    simp only [List.cons_append, List.takeWhile_cons, List.dropWhile_cons, ha, if_true]
    exact ⟨by rw [ih'.1], by rw [ih'.2]⟩

lemma rustTrim_isEmpty_iff (cs : List Char) :
    (rustTrim cs).isEmpty = true ↔ ∀ c ∈ cs, rustWs c = true := by
  unfold rustTrim
  rw [List.isEmpty_iff, List.reverse_eq_nil_iff, List.dropWhile_eq_nil_iff]
  constructor
  · intro h c hc
    have hsplit := List.takeWhile_append_dropWhile (p := rustWs) (l := cs)
    rw [← hsplit] at hc
    rcases List.mem_append.mp hc with h1 | h2
    · exact List.mem_takeWhile_imp h1
    · exact h c (List.mem_reverse.mpr h2)
  · intro h x hx
    exact h x ((List.dropWhile_sublist rustWs).mem (List.mem_reverse.mp hx))

lemma rustTrim_nonempty_of_mem {cs : List Char} {c : Char} (hc : c ∈ cs)
    (hw : rustWs c = false) : (rustTrim cs).isEmpty = false := by
  cases he : (rustTrim cs).isEmpty with
  | false => rfl
  | true =>
    have := (rustTrim_isEmpty_iff cs).mp he c hc
    rw [hw] at this
    exact Bool.noConfusion this

/-- A value whose full scan ends outside an escape is consumed exactly up to
the following quote. -/
lemma scanVal_append_quote : ∀ (v : Str) (esc : Bool) (r : List Char),
    scanEnd v esc = some false → scanVal (v ++ '"' :: r) esc = (v, '"' :: r) := by
  intro v
  induction v with
  | nil =>
    intro esc r h
    simp only [scanEnd, Option.some.injEq] at h
    subst h
    simp [scanVal]
  | cons c tl ih =>
    intro esc r h
    simp only [scanEnd] at h
    by_cases hq : (!esc && c == '"') = true
    · rw [if_pos hq] at h
      exact absurd h (by simp)
    · rw [if_neg hq] at h
      have hrec := ih (if esc then false else c == '\\') r h
      simp only [List.cons_append, scanVal]
      rw [if_neg hq]
      simp only [List.append_eq, hrec]

/-! ## Claim C8: language detection -/

lemma detectScan_eq : ∀ (l : List Char) (hc ha : Bool),
    detectScan l hc ha =
      if l.any isKana then none
      else some (hc || l.any isCjk, ha || l.any isAsciiAlpha) := by
  intro l
  induction l with
  | nil => intro hc ha; simp [detectScan]
  | cons c tl ih =>
    intro hc ha
    simp only [detectScan, List.any_cons]
    by_cases hk : isKana c = true
    · simp [hk]
    · simp only [Bool.not_eq_true] at hk
      rw [if_neg (by simp [hk]), ih]
      by_cases hrest : tl.any isKana = true
      · simp [hk, hrest]
      · simp [hk, hrest, Bool.or_assoc]

/-- Claim C8: `detect_language` classifies exactly as specified: Japanese if
any code point is Hiragana (U+3040 to U+309F) or Katakana (U+30A0 to U+30FF);
otherwise Chinese if any code point is a CJK Unified Ideograph (U+4E00 to
U+9FFF); otherwise Chinese when the text is non-empty with no ASCII
alphabetic character; otherwise (including empty text) English. -/
theorem detect_language_matches_spec (s : String) :
    detectLanguage s = detectLanguageSpec s := by
  unfold detectLanguage detectLanguageSpec
  rw [detectScan_eq]
  by_cases h1 : (str s).any isKana = true
  · simp [h1]
  · simp only [Bool.not_eq_true] at h1
    by_cases h2 : (str s).any isCjk = true
    · simp [h1, h2]
    · simp only [Bool.not_eq_true] at h2
      simp [h1, h2]

/-! ## Claim C4: the applier returns the input on an empty composition or
an empty shortest path -/

/-- Claim C4: for non-empty input, when composition yields an automaton with
no states, or the shortest-path search does, `FstTextNormalizer::normalize`
returns `Ok` with the original input; neither condition is an error. -/
theorem fst_no_match_returns_input (lib : FstLib) (input : String) (c : RFst)
    (hne : input.isEmpty = false)
    (hc : lib.compose (utf8Bytes input) = .ok c)
    (h : c.numStates = 0 ∨ ∃ b, lib.shortestPath c = .ok b ∧ b.numStates = 0) :
    fstNormalize lib input = .ok input := by
  unfold fstNormalize
  rw [if_neg (by simp [hne]), hc]
  rcases h with h0 | ⟨b, hb, hb0⟩
  · simp [h0]
  · by_cases hcz : c.numStates = 0
    · simp [hcz]
    · simp [hcz, hb, hb0]

theorem fst_no_match_returns_input_witness :
    fstNormalize constLib "a" = .ok "a" :=
  fst_no_match_returns_input constLib "a" ⟨0⟩ (by decide) rfl (Or.inl rfl)

/-! ## Claim C3: input without a brace -/

/-- Claim C3 (amended): input containing no `\x7b` is returned unchanged,
except that input that trims to empty (in particular whitespace-only input)
is mapped to the empty string. -/
theorem reorder_no_brace (os : Orders) (input : String)
    (h : (str input).contains '{' = false) :
    TokenParser.reorder os input =
      .ok (if (rustTrim (str input)).isEmpty then "" else input) := by
  unfold TokenParser.reorder
  by_cases he : (rustTrim (str input)).isEmpty = true
  · simp [he]
  · simp only [Bool.not_eq_true] at he
    rw [if_neg (by simp [he]), if_pos (by rw [h]; rfl), if_neg (by simp [he])]

theorem reorder_no_brace_witness :
    TokenParser.reorder (TokenParser.newOrders .zh .tn) "ab" = .ok "ab" :=
  (reorder_no_brace (TokenParser.newOrders .zh .tn) "ab" (by decide)).trans (by decide)

/-- Claim C3 counterexample: the whitespace-only input `" "` contains no
`\x7b` but is not returned unchanged: the reorderer returns `""`. -/
theorem reorder_whitespace_counterexample :
    TokenParser.reorder (TokenParser.newOrders .zh .tn) " " = .ok "" ∧
    decide ((" " : String) = "") = false := by decide

/-! ## Claim C6: reorder never propagates a parse failure -/

lemma reorder_isOk (os : Orders) (input : String) :
    ∃ s, TokenParser.reorder os input = .ok s := by
  unfold TokenParser.reorder
  split
  · exact ⟨_, rfl⟩
  · split
    · exact ⟨_, rfl⟩
    · split
      · exact ⟨_, rfl⟩
      · exact ⟨_, rfl⟩

/-- Claim C6: `reorder` never returns an error: every input yields `Ok`, and
when the input is in entity notation (contains `\x7b`, does not trim to
empty) and structural parsing fails, the result is `Ok` with the original
text unchanged. -/
theorem reorder_recovers_parse_failure (os : Orders) (input : String) :
    (∃ s, TokenParser.reorder os input = .ok s) ∧
    ((rustTrim (str input)).isEmpty = false →
      (str input).contains '{' = true →
      (∃ e, parseChars (str input) = .error e) →
      TokenParser.reorder os input = .ok input) := by
  refine ⟨reorder_isOk os input, ?_⟩
  rintro h1 h2 ⟨e, he⟩
  unfold TokenParser.reorder
  simp [h1, h2, he]

theorem reorder_recovers_parse_failure_witness :
    TokenParser.reorder (TokenParser.newOrders .zh .tn) "1\x7b" = .ok "1\x7b" :=
  (reorder_recovers_parse_failure (TokenParser.newOrders .zh .tn) "1\x7b").2
    (by decide) (by decide)
    ⟨.tokenParseError "Unexpected character '1' at position 0", by decide⟩

/-! ## Claim C9: the parser terminates, with fuel linear in the input -/

/-- Claim C9: every scanning step advances, so the fuel-indexed parse loop
stabilizes at any fuel beyond the input length — parsing any input (malformed
or not) terminates in linearly many steps — and the parser always returns
either a token sequence or a parse error. -/
theorem parse_terminates_with_linear_fuel (s : String) (fuel : Nat)
    (h : (str s).length < fuel) :
    parseLoopF fuel 0 (str s) = TokenParser.parse s ∧
    ((∃ ts, TokenParser.parse s = .ok ts) ∨ (∃ e, TokenParser.parse s = .error e)) := by
  constructor
  · exact parseLoopF_congr fuel ((str s).length + 1) 0 (str s) h (by omega)
  · cases hp : TokenParser.parse s with
    | ok ts => exact Or.inl ⟨ts, rfl⟩
    | error e => exact Or.inr ⟨e, rfl⟩

theorem parse_terminates_with_linear_fuel_witness :
    parseLoopF 100 0 (str "a\x7b") = TokenParser.parse "a\x7b" :=
  (parse_terminates_with_linear_fuel "a\x7b" 100 (by decide)).1

/-! ## Claim C2: duplicate keys -/

/-- Claim C2 counterexample: parsing a body with the same key twice records
the key in `order` at both occurrences (the order list is not duplicate-free),
while the value is overwritten to the later one. -/
theorem duplicate_key_order_counterexample :
    parseChars (str "a \x7b k: \"1\" k: \"2\" \x7d") =
      .ok [⟨str "a", [str "k", str "k"],
        [(str "k", str "2"), (str "k", str "1")]⟩] ∧
    decide (List.Nodup [str "k", str "k"]) = false := by decide

/-- Claim C2 (amended): a later occurrence of a key overwrites the value in
`members`, but `Token::append` pushes the key onto `order` at every
occurrence — the first-occurrence position is kept, and a duplicate entry is
added per further occurrence, so `order` may contain duplicates. -/
theorem append_overwrites_value_but_order_keeps_duplicates (t : Token) (k v k' : Str) :
    (t.append k v).order = t.order ++ [k] ∧
    lookupM (t.append k v).members k' =
      (if k = k' then some v else lookupM t.members k') := by
  constructor
  · rfl
  · simp [Token.append, insertM, lookupM]

/-! ## Claim C1: which fields serialization emits -/

lemma lookupM_mem : ∀ {m : Members} {k v : Str}, lookupM m k = some v → (k, v) ∈ m := by
  intro m
  induction m with
  | nil => intro k v h; simp [lookupM] at h
  | cons p tl ih =>
    intro k v h
    obtain ⟨a, b⟩ := p
    simp only [lookupM] at h
    by_cases hak : a = k
    · rw [if_pos hak] at h
      injection h with hbv
      subst hak
      subst hbv
      exact List.mem_cons_self _ _
    · rw [if_neg hak] at h
      exact List.mem_cons_of_mem _ (ih h)

lemma mem_emitPairs (os : Orders) (t : Token) (k v : Str) :
    (k, v) ∈ emitPairs os t ↔ (k ∈ chosenOrder os t ∧ lookupM t.members k = some v) := by
  unfold emitPairs
  rw [List.mem_filterMap]
  constructor
  · rintro ⟨a, ha, hfa⟩
    cases hla : lookupM t.members a with
    | none => rw [hla] at hfa; simp at hfa
    | some w =>
      rw [hla] at hfa
      simp only [Option.map_some'] at hfa
      injection hfa with h1
      injection h1 with hak hwv
      subst hak
      subst hwv
      exact ⟨ha, hla⟩
  · rintro ⟨hk, hv⟩
    exact ⟨k, hk, by rw [hv]; rfl⟩

/-- Claim C1 (amended): serialization preserves the set of key-value pairs of
a parsed token whenever no canonical order entry exists for its entity type,
or the token carries the `preserve_order: "true"` marker; when a canonical
entry is used, the emitted pairs are exactly the members whose key occurs in
the canonical list — members outside the canonical list are dropped, with the
remaining values unchanged. -/
theorem reorder_field_preservation (os : Orders) (t : Token) (hinv : TokenInv t) :
    ((lookupO os t.name = none ∨
        lookupM t.members (str "preserve_order") = some (str "true")) →
      ∀ k v, ((k, v) ∈ emitPairs os t ↔ lookupM t.members k = some v)) ∧
    (∀ d, lookupO os t.name = some d →
      lookupM t.members (str "preserve_order") ≠ some (str "true") →
      ∀ k v, ((k, v) ∈ emitPairs os t ↔ (k ∈ d ∧ lookupM t.members k = some v))) := by
  constructor
  · intro hno k v
    have hch : chosenOrder os t = t.order := by
      unfold chosenOrder
      rcases hno with h | h
      · rw [h]
      · cases hlo : lookupO os t.name with
        | none => rfl
        | some d =>
          show (if lookupM t.members (str "preserve_order") ≠ some (str "true") then d
            else t.order) = t.order
          rw [if_neg (by simp [h])]
    rw [mem_emitPairs, hch]
    constructor
    · rintro ⟨_, hv⟩
      exact hv
    · intro hv
      exact ⟨hinv.2 (k, v) (lookupM_mem hv), hv⟩
  · intro d hd hp k v
    have hch : chosenOrder os t = d := by
      unfold chosenOrder
      rw [hd]
      show (if lookupM t.members (str "preserve_order") ≠ some (str "true") then d
        else t.order) = d
      rw [if_pos hp]
    rw [mem_emitPairs, hch]

theorem reorder_field_preservation_witness :
    ((str "hour", str "3") ∈
      emitPairs (TokenParser.newOrders .zh .tn)
        ⟨str "time", [str "hour"], [(str "hour", str "3")]⟩ ↔
      (str "hour" ∈ [str "noon", str "hour", str "minute", str "second"] ∧
        lookupM [(str "hour", str "3")] (str "hour") = some (str "3"))) ∧
    ((str "foo", str "1") ∈
      emitPairs (TokenParser.newOrders .zh .tn)
        ⟨str "bar", [str "foo"], [(str "foo", str "1")]⟩ ↔
      lookupM [(str "foo", str "1")] (str "foo") = some (str "1")) := by
  constructor
  · exact (reorder_field_preservation (TokenParser.newOrders .zh .tn)
      ⟨str "time", [str "hour"], [(str "hour", str "3")]⟩ (by decide)).2
      [str "noon", str "hour", str "minute", str "second"] (by decide) (by decide)
      (str "hour") (str "3")
  · exact (reorder_field_preservation (TokenParser.newOrders .zh .tn)
      ⟨str "bar", [str "foo"], [(str "foo", str "1")]⟩ (by decide)).1
      (Or.inl (by decide)) (str "foo") (str "1")

/-- Claim C1 counterexample: when a canonical entry exists, a member field
whose key is not in the canonical list is dropped from the serialized output:
the parsed `date` token has the field `foo: "1"`, but under the
Chinese/Japanese TN table the serialization emits no fields at all. -/
theorem reorder_drops_unknown_field_counterexample :
    parseChars (str "date \x7b foo: \"1\" \x7d") =
      .ok [⟨str "date", [str "foo"], [(str "foo", str "1")]⟩] ∧
    TokenParser.reorder (TokenParser.newOrders .zh .tn) "date \x7b foo: \"1\" \x7d" =
      .ok "date \x7b \x7d" ∧
    decide ((str "foo", str "1") ∈ emitPairs (TokenParser.newOrders .zh .tn)
      ⟨str "date", [str "foo"], [(str "foo", str "1")]⟩) = false := by decide

/-! ## Claim C5: empty input yields empty output -/

lemma getOrLoad_ok {env : Env} (h : EnvOk env) (p : String) :
    ∃ lib, getOrLoad env p = .ok lib := by
  obtain ⟨lib, hl⟩ := h p
  exact ⟨lib, by unfold getOrLoad; rw [hl]⟩

lemma fstNormalize_empty (lib : FstLib) : fstNormalize lib "" = .ok "" := by
  unfold fstNormalize
  rw [if_pos (by decide)]

lemma postStage_empty {env : Env} (h : EnvOk env) (enabled : Bool) (path : String) :
    postStage env enabled path "" = .ok "" := by
  unfold postStage
  cases enabled with
  | false => rfl
  | true =>
    obtain ⟨lib, hl⟩ := getOrLoad_ok h path
    rw [if_pos rfl, hl]
    exact fstNormalize_empty lib

lemma preprocess_empty {env : Env} (h : EnvOk env) (cfg : NormalizerConfig) :
    preprocess env cfg "" = .ok "" := by
  unfold preprocess
  cases ht : cfg.traditionalToSimple with
  | false => rfl
  | true =>
    obtain ⟨lib, hl⟩ := getOrLoad_ok h "traditional_to_simple.fst"
    rw [if_pos rfl, hl]
    exact fstNormalize_empty lib

lemma postprocess_empty {env : Env} (h : EnvOk env) (cfg : NormalizerConfig) :
    postprocess env cfg "" = .ok "" := by
  unfold postprocess
  rw [postStage_empty h]
  show postStage env cfg.removeInterjections "remove_interjections.fst" "" >>= _ = _
  rw [postStage_empty h]
  show postStage env cfg.removePuncts "remove_puncts.fst" "" >>= _ = _
  rw [postStage_empty h]
  show postStage env cfg.tagOov "tag_oov.fst" "" >>= _ = _
  rw [postStage_empty h]
  rfl

lemma shouldNormalize_empty (op : Operator) (b : Bool) :
    shouldNormalize "" op b = false := by
  cases op <;> cases b <;> decide

lemma exceptOkBind {α β : Type} (a : α) (f : α → Except WErr β) :
    (Except.ok a >>= f) = f a := rfl

lemma exceptPureBind {α β : Type} (a : α) (f : α → Except WErr β) :
    ((pure a : Except WErr α) >>= f) = f a := rfl

lemma exceptErrorBind {α β : Type} (e : WErr) (f : α → Except WErr β) :
    (Except.error e >>= f) = (Except.error e : Except WErr β) := rfl

/-- Claim C5: for every configuration (any language, operator and toggles),
in any deployment whose artifact loads succeed, `normalize("")` returns
`Ok("")`. -/
theorem normalize_empty_yields_empty (env : Env) (fixc : String → String)
    (cfg : NormalizerConfig) (h : EnvOk env) :
    normalizeWithConfig env fixc cfg "" = .ok "" := by
  have hc : (str "").contains '\'' = false := by decide
  unfold normalizeWithConfig
  simp only [hc, Bool.and_false, Bool.false_eq_true, if_false, preprocess_empty h cfg,
    exceptOkBind, exceptPureBind, shouldNormalize_empty, postprocess_empty h cfg]

theorem normalize_empty_yields_empty_witness :
    normalizeWithConfig envAllOk id
      { lang := .auto, operator := .tn, fixContractions := true,
        traditionalToSimple := true, fullToHalf := true, removeInterjections := true,
        removePuncts := true, tagOov := true, enable0To9 := true,
        removeErhua := true } "" = .ok "" :=
  normalize_empty_yields_empty envAllOk id _ (fun p => ⟨constLib, rfl⟩)

/-! ## Claim C10: the InvalidLanguage arms are unreachable -/

lemma isInvalidRes_bind {α β : Type} {x : Except WErr α} {f : α → Except WErr β}
    (hx : isInvalidRes x = false) (hf : ∀ a, isInvalidRes (f a) = false) :
    isInvalidRes (x >>= f) = false := by
  cases x with
  | ok a =>
    rw [exceptOkBind]
    exact hf a
  | error e =>
    rw [exceptErrorBind]
    exact hx

lemma isInvalidRes_pure {α : Type} (a : α) :
    isInvalidRes (pure a : Except WErr α) = false := rfl

lemma getOrLoad_not_inv (env : Env) (p : String) :
    isInvalidRes (getOrLoad env p) = false := by
  unfold getOrLoad
  cases env p <;> rfl

lemma fstToString_not_inv (lib : FstLib) (f : RFst) :
    isInvalidRes (fstToString lib f) = false := by
  unfold fstToString
  split
  · rfl
  · split
    · rfl
    · split
      · rfl
      · split
        · rfl
        · rfl

lemma fstNormalize_not_inv (lib : FstLib) (s : String) :
    isInvalidRes (fstNormalize lib s) = false := by
  unfold fstNormalize
  split
  · rfl
  · split
    · rfl
    · split
      · rfl
      · split
        · rfl
        · split
          · rfl
          · exact fstToString_not_inv _ _

lemma preprocess_not_inv (env : Env) (cfg : NormalizerConfig) (s : String) :
    isInvalidRes (preprocess env cfg s) = false := by
  unfold preprocess
  split
  · split
    · rename_i e hg
      have := getOrLoad_not_inv env "traditional_to_simple.fst"
      rw [hg] at this
      exact this
    · exact fstNormalize_not_inv _ _
  · rfl

lemma postStage_not_inv (env : Env) (b : Bool) (p : String) (s : String) :
    isInvalidRes (postStage env b p s) = false := by
  unfold postStage
  split
  · split
    · rename_i e hg
      have := getOrLoad_not_inv env p
      rw [hg] at this
      exact this
    · exact fstNormalize_not_inv _ _
  · rfl

lemma postprocess_not_inv (env : Env) (cfg : NormalizerConfig) (s : String) :
    isInvalidRes (postprocess env cfg s) = false := by
  unfold postprocess
  exact isInvalidRes_bind (postStage_not_inv _ _ _ _) fun t1 =>
    isInvalidRes_bind (postStage_not_inv _ _ _ _) fun t2 =>
    isInvalidRes_bind (postStage_not_inv _ _ _ _) fun t3 =>
    isInvalidRes_bind (postStage_not_inv _ _ _ _) fun t4 =>
    isInvalidRes_pure _

lemma reorder_not_inv (os : Orders) (s : String) :
    isInvalidRes (TokenParser.reorder os s) = false := by
  obtain ⟨u, hu⟩ := reorder_isOk os s
  rw [hu]
  rfl

lemma tagPath_ok (lang : Language) (cfg : NormalizerConfig) (h1 : lang ≠ .auto)
    (h2 : ¬(lang = .en ∧ cfg.operator = .itn)) : ∃ p, tagPath lang cfg = .ok p := by
  unfold tagPath
  cases lang with
  | auto => exact absurd rfl h1
  | en =>
    cases ho : cfg.operator with
    | tn => exact ⟨_, rfl⟩
    | itn => exact absurd ⟨rfl, ho⟩ h2
  | zh =>
    cases ho : cfg.operator with
    | tn => exact ⟨_, rfl⟩
    | itn => exact ⟨_, rfl⟩
  | ja =>
    cases ho : cfg.operator with
    | tn => exact ⟨_, rfl⟩
    | itn => exact ⟨_, rfl⟩

lemma verbalizePath_ok (lang : Language) (cfg : NormalizerConfig) (h1 : lang ≠ .auto)
    (h2 : ¬(lang = .en ∧ cfg.operator = .itn)) : ∃ p, verbalizePath lang cfg = .ok p := by
  unfold verbalizePath
  cases lang with
  | auto => exact absurd rfl h1
  | en =>
    cases ho : cfg.operator with
    | tn => exact ⟨_, rfl⟩
    | itn => exact absurd ⟨rfl, ho⟩ h2
  | zh =>
    cases ho : cfg.operator with
    | tn => exact ⟨_, rfl⟩
    | itn => exact ⟨_, rfl⟩
  | ja =>
    cases ho : cfg.operator with
    | tn => exact ⟨_, rfl⟩
    | itn => exact ⟨_, rfl⟩

lemma tag_not_inv (env : Env) (cfg : NormalizerConfig) (s : String) (lang : Language)
    (h : ∃ p, tagPath lang cfg = .ok p) :
    isInvalidRes (tag env cfg s lang) = false := by
  obtain ⟨p, hp⟩ := h
  unfold tag
  rw [hp, exceptOkBind]
  exact isInvalidRes_bind (getOrLoad_not_inv _ _) fun lib =>
    isInvalidRes_bind (fstNormalize_not_inv _ _) fun r => isInvalidRes_pure _

lemma verbalize_not_inv (env : Env) (cfg : NormalizerConfig) (s : String) (lang : Language)
    (h : ∃ p, verbalizePath lang cfg = .ok p) :
    isInvalidRes (verbalize env cfg s lang) = false := by
  obtain ⟨p, hp⟩ := h
  unfold verbalize
  rw [hp, exceptOkBind]
  exact isInvalidRes_bind (getOrLoad_not_inv _ _) fun lib =>
    isInvalidRes_bind (fstNormalize_not_inv _ _) fun r => isInvalidRes_pure _

lemma detectLanguage_ne_auto (s : String) : detectLanguage s ≠ .auto := by
  unfold detectLanguage
  cases detectScan (str s) false false with
  | none => simp
  | some p =>
    obtain ⟨hc, ha⟩ := p
    split
    · simp
    · split
      · simp
      · split <;> simp

/-- The effective language passed to tag and verbalize is a concrete
language and never the unsupported English/ITN pair. -/
lemma effective_lang_ok (l : Language) (op : Operator) (h : l ≠ .auto) :
    (if l = .en ∧ op = .itn then Language.zh else l) ≠ .auto ∧
    ¬((if l = .en ∧ op = .itn then Language.zh else l) = .en ∧ op = .itn) := by
  cases l <;> cases op <;> simp_all

/-- Claim C10: for every environment, configuration and input,
`normalize_with_config` never returns the `InvalidLanguage` error: the
language reaching the tag and verbalize stages is always resolved (never
`Auto`) and never the English/ITN pair, so the fallback error arms are
unreachable, and no other stage constructs that error. -/
theorem normalize_never_invalid_language (env : Env) (fixc : String → String)
    (cfg : NormalizerConfig) (text : String) :
    isInvalidRes (normalizeWithConfig env fixc cfg text) = false := by
  unfold normalizeWithConfig
  apply isInvalidRes_bind (preprocess_not_inv _ _ _)
  intro t2
  dsimp only
  split
  · have hlang : (if cfg.lang = .auto then detectLanguage t2 else cfg.lang) ≠ .auto := by
      split
      · exact detectLanguage_ne_auto t2
      · assumption
    obtain ⟨hne, hni⟩ := effective_lang_ok _ cfg.operator hlang
    apply isInvalidRes_bind (tag_not_inv _ _ _ _ (tagPath_ok _ _ hne hni))
    intro t3
    apply isInvalidRes_bind (reorder_not_inv _ _)
    intro t4
    apply isInvalidRes_bind (verbalize_not_inv _ _ _ _ (verbalizePath_ok _ _ hne hni))
    intro y
    exact postprocess_not_inv _ _ _
  · exact isInvalidRes_bind (isInvalidRes_pure _) fun y => postprocess_not_inv _ _ _

/-! ## Claim C7: structural invariants of parsed tokens -/

lemma Token.append_inv {t : Token} (hinv : TokenInv t) (k v : Str) :
    TokenInv (t.append k v) := by
  obtain ⟨h1, h2⟩ := hinv
  constructor
  · intro k' hk'
    simp only [Token.append, insertM, lookupM] at *
    by_cases hkk : k = k'
    · rw [if_pos hkk]
      rfl
    · rw [if_neg hkk]
      rcases List.mem_append.mp hk' with h | h
      · exact h1 k' h
      · simp at h
        exact absurd h.symm hkk
  · intro p hp
    simp only [Token.append, insertM] at *
    rcases List.mem_cons.mp hp with h | h
    · subst h
      exact List.mem_append.mpr (Or.inr (by simp))
    · exact List.mem_append.mpr (Or.inl (h2 p h))

lemma Token.append_keys {t : Token} (hk : GoodKeys t) {k : Str} (hg : GoodName k)
    (v : Str) : GoodKeys (t.append k v) := by
  intro k' hk'
  simp only [Token.append] at hk'
  rcases List.mem_append.mp hk' with h | h
  · exact hk k' h
  · simp at h
    subst h
    exact hg

lemma takeWhile_goodName {cs : List Char}
    (h : (cs.takeWhile isNameChar).isEmpty = false) :
    GoodName (cs.takeWhile isNameChar) := by
  constructor
  · intro h0
    rw [h0] at h
    simp at h
  · rw [List.all_eq_true]
    intro x hx
    exact List.mem_takeWhile_imp hx

lemma parseBodyF_invariants : ∀ (fuel : Nat) (cs : List Char) (t : Token),
    (parseBodyF fuel cs t).1.name = t.name ∧
    (GoodKeys t → TokenInv t →
      GoodKeys (parseBodyF fuel cs t).1 ∧ TokenInv (parseBodyF fuel cs t).1) := by
  intro fuel
  induction fuel with
  | zero => intro cs t; exact ⟨rfl, fun hk hi => ⟨hk, hi⟩⟩
  | succ g ih =>
    intro cs t
    cases hdw : cs.dropWhile rustWs with
    | nil =>
      simp only [parseBodyF, hdw]
      exact ⟨by simp, fun hk hi => ⟨hk, hi⟩⟩
    | cons c rest =>
      simp only [parseBodyF, hdw]
      split
      · exact ⟨rfl, fun hk hi => ⟨hk, hi⟩⟩
      · split
        · exact ih rest t
        · rename_i hc hkey
          have hgood : GoodName ((c :: rest).takeWhile isNameChar) :=
            takeWhile_goodName (by simpa using hkey)
          have := ih (skipQuote (scanVal (skipQuote
              (((c :: rest).dropWhile isNameChar).dropWhile colonSpace)) false).2)
            (t.append ((c :: rest).takeWhile isNameChar)
              (scanVal (skipQuote
                (((c :: rest).dropWhile isNameChar).dropWhile colonSpace)) false).1)
          refine ⟨this.1.trans rfl, fun hk hi => this.2 ?_ ?_⟩
          · exact Token.append_keys hk hgood _
          · exact Token.append_inv hi _ _

/-- Every token produced by a successful parse has a wellformed name,
wellformed keys, and the order-members invariant. -/
lemma parseLoop_invariants : ∀ (n pos : Nat) (cs : List Char), cs.length ≤ n →
    ∀ ts, parseLoop pos cs = .ok ts →
      ∀ t ∈ ts, GoodName t.name ∧ GoodKeys t ∧ TokenInv t := by
  intro n
  induction n with
  | zero =>
    intro pos cs hn ts hp t ht
    have hcs : cs = [] := List.length_eq_zero.mp (Nat.le_zero.mp hn)
    subst hcs
    rw [parseLoop_eq] at hp
    simp only [List.dropWhile_nil] at hp
    injection hp with h
    subst h
    simp at ht
  | succ m ih =>
    intro pos cs hn ts hp t ht
    rw [parseLoop_eq] at hp
    cases hdw : cs.dropWhile rustWs with
    | nil =>
      rw [hdw] at hp
      injection hp with h
      subst h
      simp at ht
    | cons c rest =>
      rw [hdw] at hp
      dsimp only at hp
      by_cases hkey : ((c :: rest).takeWhile isNameChar).isEmpty = true
      · rw [if_pos hkey] at hp
        exact absurd hp (by simp)
      · rw [if_neg hkey] at hp
        have hlen : rest.length + 1 ≤ cs.length := by
          have h0 : (c :: rest).length ≤ cs.length := by
            rw [← hdw]; exact length_dropWhile_le _ _
          simpa using h0
        have h2 : ((c :: rest).dropWhile isNameChar).length < rest.length + 1 := by
          have := dropWhile_name_lt (by simpa using hkey :
            ((c :: rest).takeWhile isNameChar).isEmpty = false)
          simpa using this
        have h3 := length_dropWhile_le wsOrBrace ((c :: rest).dropWhile isNameChar)
        have h4 := parseBody_length_le
          (((c :: rest).dropWhile isNameChar).dropWhile wsOrBrace)
          (Token.new ((c :: rest).takeWhile isNameChar))
        cases hrec : parseLoop (pos + (cs.length -
            (parseBody (((c :: rest).dropWhile isNameChar).dropWhile wsOrBrace)
              (Token.new ((c :: rest).takeWhile isNameChar))).2.length))
            (parseBody (((c :: rest).dropWhile isNameChar).dropWhile wsOrBrace)
              (Token.new ((c :: rest).takeWhile isNameChar))).2 with
        | error e => rw [hrec] at hp; exact absurd hp (by simp)
        | ok ts' =>
          rw [hrec] at hp
          injection hp with h
          subst h
          have hinv := parseBodyF_invariants
            ((((c :: rest).dropWhile isNameChar).dropWhile wsOrBrace).length + 1)
            (((c :: rest).dropWhile isNameChar).dropWhile wsOrBrace)
            (Token.new ((c :: rest).takeWhile isNameChar))
          rcases List.mem_cons.mp ht with h | h
          · subst h
            have hgood : GoodName ((c :: rest).takeWhile isNameChar) :=
              takeWhile_goodName (by simpa using hkey)
            refine ⟨?_, ?_⟩
            · show GoodName (parseBody _ _).1.name
              rw [show (parseBody (((c :: rest).dropWhile isNameChar).dropWhile wsOrBrace)
                (Token.new ((c :: rest).takeWhile isNameChar))).1.name =
                ((c :: rest).takeWhile isNameChar) from hinv.1]
              exact hgood
            · exact hinv.2 (by intro k hk; simp [Token.new] at hk)
                (by constructor <;> intro x hx <;> simp [Token.new] at hx)
          · exact ih _ _ (by omega) ts' hrec t h

/-! ## Claim C7: building tokens back from emitted pairs -/

lemma appendAll_name : ∀ (l : List (Str × Str)) (t : Token),
    (appendAll t l).name = t.name := by
  intro l
  induction l with
  | nil => intro t; rfl
  | cons p tl ih =>
    intro t
    obtain ⟨a, b⟩ := p
    exact (ih (t.append a b)).trans rfl

lemma appendAll_order : ∀ (l : List (Str × Str)) (t : Token),
    (appendAll t l).order = t.order ++ l.map Prod.fst := by
  intro l
  induction l with
  | nil => intro t; simp [appendAll]
  | cons p tl ih =>
    intro t
    obtain ⟨a, b⟩ := p
    show (appendAll (t.append a b) tl).order = _
    rw [ih (t.append a b)]
    simp [Token.append]

lemma appendAll_lookup : ∀ (l : List (Str × Str)) (t : Token) (k : Str),
    lookupM (appendAll t l).members k =
      (match lookupLast l k with
       | some v => some v
       | none => lookupM t.members k) := by
  intro l
  induction l with
  | nil => intro t k; rfl
  | cons p tl ih =>
    intro t k
    obtain ⟨a, b⟩ := p
    show lookupM (appendAll (t.append a b) tl).members k = _
    rw [ih (t.append a b)]
    simp only [Token.append, insertM, lookupM, lookupLast]
    cases lookupLast tl k with
    | some v => rfl
    | none =>
      by_cases hak : a = k
      · rw [if_pos hak, if_pos hak]
      · rw [if_neg hak, if_neg hak]

lemma lookupLast_emit : ∀ (ks : List Str) (m : Members) (k : Str),
    lookupLast (ks.filterMap (fun a => (lookupM m a).map (fun v => (a, v)))) k =
      (if k ∈ ks then lookupM m k else none) := by
  intro ks
  induction ks with
  | nil => intro m k; simp [lookupLast]
  | cons a tl ih =>
    intro m k
    cases hla : lookupM m a with
    | none =>
      rw [List.filterMap_cons]
      simp only [hla, Option.map_none']
      rw [ih]
      by_cases hk : k ∈ tl
      · rw [if_pos hk, if_pos (List.mem_cons_of_mem a hk)]
      · rw [if_neg hk]
        by_cases hka : k = a
        · subst hka
          rw [if_pos (List.mem_cons_self k tl), hla]
        · rw [if_neg (by simp [hka, hk])]
    | some w =>
      rw [List.filterMap_cons]
      simp only [hla, Option.map_some']
      show lookupLast ((a, w) :: _) k = _
      simp only [lookupLast]
      rw [ih]
      by_cases hk : k ∈ tl
      · rw [if_pos hk, if_pos (List.mem_cons_of_mem a hk)]
        cases hlk : lookupM m k with
        | some v => rfl
        | none =>
          show (if a = k then some w else none) = none
          by_cases hka : a = k
          · subst hka
            rw [hla] at hlk
            exact absurd hlk (by simp)
          · exact if_neg hka
      · rw [if_neg hk]
        show (if a = k then some w else none) = if k ∈ a :: tl then lookupM m k else none
        by_cases hka : a = k
        · subst hka
          rw [if_pos rfl, if_pos (List.mem_cons_self a tl), hla]
        · rw [if_neg hka, if_neg (show ¬(k ∈ a :: tl) by
            intro h
            rcases List.mem_cons.mp h with h1 | h1
            · exact hka h1.symm
            · exact hk h1)]

lemma roundTok_name (os : Orders) (t : Token) : (roundTok os t).name = t.name := by
  unfold roundTok
  rw [appendAll_name]
  rfl

lemma roundTok_order (os : Orders) (t : Token) :
    (roundTok os t).order = (emitPairs os t).map Prod.fst := by
  unfold roundTok
  rw [appendAll_order]
  rfl

lemma roundTok_lookup (os : Orders) (t : Token) (k : Str) :
    lookupM (roundTok os t).members k =
      if k ∈ chosenOrder os t then lookupM t.members k else none := by
  unfold roundTok emitPairs
  rw [appendAll_lookup, lookupLast_emit]
  by_cases hk : k ∈ chosenOrder os t
  · rw [if_pos hk]
    cases lookupM t.members k <;> rfl
  · rw [if_neg hk]
    rfl

lemma map_fst_filterMap_lookup (ks : List Str) (m : Members) :
    (ks.filterMap (fun a => (lookupM m a).map (fun v => (a, v)))).map Prod.fst =
      ks.filter (fun a => (lookupM m a).isSome) := by
  induction ks with
  | nil => rfl
  | cons a tl ih =>
    rw [List.filterMap_cons, List.filter_cons]
    cases hla : lookupM m a with
    | none => simpa using ih
    | some v => simpa using ih

lemma filter_order_of_inv {t : Token} (hinv : TokenInv t) :
    t.order.filter (fun a => (lookupM t.members a).isSome) = t.order :=
  List.filter_eq_self.mpr hinv.1

lemma map_fst_emitPairs_of_order {os : Orders} {t : Token} (hinv : TokenInv t)
    (hch : chosenOrder os t = t.order) :
    (emitPairs os t).map Prod.fst = t.order := by
  unfold emitPairs
  rw [hch, map_fst_filterMap_lookup, filter_order_of_inv hinv]

lemma chosen_roundTok (os : Orders) (t : Token) (hinv : TokenInv t) :
    chosenOrder os (roundTok os t) = chosenOrder os t := by
  cases hlo : lookupO os t.name with
  | none =>
    have hch : chosenOrder os t = t.order := by
      unfold chosenOrder
      rw [hlo]
    rw [hch]
    unfold chosenOrder
    rw [roundTok_name, hlo]
    show (roundTok os t).order = t.order
    rw [roundTok_order, map_fst_emitPairs_of_order hinv hch]
  | some d =>
    by_cases hp : lookupM t.members (str "preserve_order") = some (str "true")
    · have hch : chosenOrder os t = t.order := by
        unfold chosenOrder
        rw [hlo]
        show (if lookupM t.members (str "preserve_order") ≠ some (str "true") then d
          else t.order) = t.order
        rw [if_neg (by simp [hp])]
      have hmem : str "preserve_order" ∈ chosenOrder os t := by
        rw [hch]
        exact hinv.2 _ (lookupM_mem hp)
      have hpr : lookupM (roundTok os t).members (str "preserve_order") =
          some (str "true") := by
        rw [roundTok_lookup, if_pos hmem, hp]
      rw [hch]
      unfold chosenOrder
      rw [roundTok_name, hlo]
      show (if lookupM (roundTok os t).members (str "preserve_order") ≠ some (str "true")
        then d else (roundTok os t).order) = t.order
      rw [if_neg (by simp [hpr]), roundTok_order, map_fst_emitPairs_of_order hinv hch]
    · have hch : chosenOrder os t = d := by
        unfold chosenOrder
        rw [hlo]
        show (if lookupM t.members (str "preserve_order") ≠ some (str "true") then d
          else t.order) = d
        rw [if_pos hp]
      have hpr : lookupM (roundTok os t).members (str "preserve_order") ≠
          some (str "true") := by
        rw [roundTok_lookup]
        by_cases hmem : str "preserve_order" ∈ chosenOrder os t
        · rw [if_pos hmem]
          exact hp
        · rw [if_neg hmem]
          simp
      rw [hch]
      unfold chosenOrder
      rw [roundTok_name, hlo]
      show (if lookupM (roundTok os t).members (str "preserve_order") ≠ some (str "true")
        then d else (roundTok os t).order) = d
      rw [if_pos hpr]

lemma emitPairs_roundTok (os : Orders) (t : Token) (hinv : TokenInv t) :
    emitPairs os (roundTok os t) = emitPairs os t := by
  unfold emitPairs
  rw [chosen_roundTok os t hinv]
  apply List.filterMap_congr
  intro a ha
  rw [roundTok_lookup, if_pos ha]

/-- Serializing the re-parsed token reproduces the serialization. -/
lemma toStringWithOrder_roundTok (os : Orders) (t : Token) (hinv : TokenInv t) :
    (roundTok os t).toStringWithOrder os = t.toStringWithOrder os := by
  unfold Token.toStringWithOrder
  rw [roundTok_name, emitPairs_roundTok os t hinv]

/-! ## Claim C7: parsing a serialized body -/

lemma all_mem_of_all {p : Char → Bool} {l : List Char} (h : l.all p = true) :
    ∀ x ∈ l, p x = true := by
  rw [List.all_eq_true] at h
  exact h

/-- Parsing the serialized fields followed by ` \x7d` appends exactly those
pairs and stops right after the closing brace. -/
lemma parseBody_serialized : ∀ (l : List (Str × Str)), (∀ p ∈ l, GoodPair p) →
    ∀ (rest : List Char) (t : Token),
      parseBody ((l.map fieldStr).flatten ++ ' ' :: '}' :: rest) t =
        (appendAll t l, rest) := by
  intro l
  induction l with
  | nil =>
    intro hl rest t
    rw [parseBody_eq]
    simp only [List.map_nil, List.flatten_nil, List.nil_append]
    rw [List.dropWhile_cons_of_pos (by decide), List.dropWhile_cons_of_neg (by decide)]
    dsimp only
    rw [if_pos (by decide)]
    rfl
  | cons p tl ih =>
    obtain ⟨k, v⟩ := p
    intro hl rest t
    obtain ⟨⟨hk0, hkall⟩, hval⟩ := hl (k, v) (by simp)
    dsimp only at hk0 hkall hval
    cases k with
    | nil => exact absurd rfl hk0
    | cons k0 ktl =>
      have hk0n : isNameChar k0 = true := all_mem_of_all hkall k0 (by simp)
      set Y := (tl.map fieldStr).flatten ++ ' ' :: '}' :: rest with hY
      have hinput : (((k0 :: ktl, v) :: tl).map fieldStr).flatten ++ ' ' :: '}' :: rest
          = ' ' :: (k0 :: (ktl ++ ':' :: ' ' :: '"' :: (v ++ '"' :: Y))) := by
        rw [hY]
        simp [fieldStr, List.append_assoc]
      rw [hinput, parseBody_eq]
      have hdw : List.dropWhile rustWs
          (' ' :: (k0 :: (ktl ++ ':' :: ' ' :: '"' :: (v ++ '"' :: Y))))
          = k0 :: (ktl ++ ':' :: ' ' :: '"' :: (v ++ '"' :: Y)) := by
        rw [List.dropWhile_cons_of_pos (by decide)]
        exact List.dropWhile_cons_of_neg (by simp [isNameChar_not_ws hk0n])
      rw [hdw]
      dsimp only
      have hbrace : ¬((k0 == '}') = true) := by simp [isNameChar_not_rbrace hk0n]
      rw [if_neg hbrace]
      have hbound := takeWhile_append_boundary (p := isNameChar) (k0 :: ktl) ':'
        (' ' :: '"' :: (v ++ '"' :: Y)) (all_mem_of_all hkall) (by decide)
      simp only [List.cons_append] at hbound
      rw [hbound.1, hbound.2]
      rw [if_neg (by simp)]
      have hcs : List.dropWhile colonSpace (':' :: ' ' :: '"' :: (v ++ '"' :: Y))
          = '"' :: (v ++ '"' :: Y) := by
        rw [List.dropWhile_cons_of_pos (by decide), List.dropWhile_cons_of_pos (by decide)]
        exact List.dropWhile_cons_of_neg (by decide)
      rw [hcs]
      rw [show skipQuote ('"' :: (v ++ '"' :: Y)) = v ++ '"' :: Y from rfl]
      rw [scanVal_append_quote v false Y hval]
      dsimp only
      rw [show skipQuote ('"' :: Y) = Y from rfl, hY]
      rw [ih (fun q hq => hl q (List.mem_cons_of_mem _ hq)) rest
        (t.append (k0 :: ktl) v)]
      rfl

/-! ## Claim C7: parsing a serialized token sequence -/

lemma parseBody_congr_ws {cs cs' : List Char}
    (h : cs.dropWhile rustWs = cs'.dropWhile rustWs) (t : Token) :
    parseBody cs t = parseBody cs' t := by
  rw [parseBody_eq, parseBody_eq, h]

lemma parseLoop_nil (pos : Nat) : parseLoop pos [] = .ok [] := by
  rw [parseLoop_eq]
  rfl

lemma joinSp_cons (x : Str) (xs : List Str) :
    joinSp (x :: xs) =
      x ++ (match xs with | [] => [] | _ :: _ => ' ' :: joinSp xs) := by
  cases xs <;> simp [joinSp]

/-- Parsing one serialized token at the head of the input: the re-parsed
token is `roundTok`, and scanning resumes exactly at the leftover tail. -/
lemma parseLoop_step (os : Orders) (t : Token) (hser : GoodSer os t) (pos : Nat)
    (cs Rtail : List Char)
    (hdw : cs.dropWhile rustWs = t.toStringWithOrder os ++ Rtail) :
    parseLoop pos cs =
      match parseLoop (pos + (cs.length -
          (parseBody ((t.name ++ ' ' :: '{' ::
            (((emitPairs os t).map fieldStr).flatten ++ [' ', '}'])
            ++ Rtail).dropWhile isNameChar |>.dropWhile wsOrBrace)
            (Token.new t.name)).2.length)) Rtail with
      | .ok ts => .ok (roundTok os t :: ts)
      | .error e => .error e := by
  obtain ⟨⟨hn0, hnall⟩, hpairs⟩ := hser
  set F := ((emitPairs os t).map fieldStr).flatten with hF
  cases hnm : t.name with
  | nil => exact absurd hnm hn0
  | cons n0 ntl =>
    rw [hnm] at hnall
    have hn0n : isNameChar n0 = true := all_mem_of_all hnall n0 (by simp)
    have hser2 : t.toStringWithOrder os ++ Rtail =
        n0 :: (ntl ++ ' ' :: '{' :: (F ++ ' ' :: '}' :: Rtail)) := by
      unfold Token.toStringWithOrder
      rw [hnm, ← hF]
      simp [List.append_assoc]
    rw [parseLoop_eq, hdw, hser2]
    dsimp only
    have hbound := takeWhile_append_boundary (p := isNameChar) (n0 :: ntl) ' '
      ('{' :: (F ++ ' ' :: '}' :: Rtail)) (all_mem_of_all hnall) (by decide)
    simp only [List.cons_append] at hbound
    rw [hbound.1, hbound.2]
    rw [if_neg (by simp)]
    have hwsb : List.dropWhile wsOrBrace (' ' :: '{' :: (F ++ ' ' :: '}' :: Rtail))
        = List.dropWhile wsOrBrace (F ++ ' ' :: '}' :: Rtail) := by
      rw [List.dropWhile_cons_of_pos (by decide), List.dropWhile_cons_of_pos (by decide)]
    rw [hwsb]
    have hwseq : (List.dropWhile wsOrBrace (F ++ ' ' :: '}' :: Rtail)).dropWhile rustWs
        = (F ++ ' ' :: '}' :: Rtail).dropWhile rustWs := by
      rw [hF]
      cases hemit : emitPairs os t with
      | nil =>
        simp only [List.map_nil, List.flatten_nil, List.nil_append]
        rw [List.dropWhile_cons_of_pos (show wsOrBrace ' ' = true by decide),
          List.dropWhile_cons_of_neg (show ¬ wsOrBrace '}' = true by decide),
          List.dropWhile_cons_of_neg (show ¬ rustWs '}' = true by decide),
          List.dropWhile_cons_of_pos (show rustWs ' ' = true by decide),
          List.dropWhile_cons_of_neg (show ¬ rustWs '}' = true by decide)]
      | cons q etl =>
        obtain ⟨kq, vq⟩ := q
        have hq := hpairs (kq, vq) (by rw [hemit]; simp)
        obtain ⟨⟨hkq0, hkqall⟩, hvq⟩ := hq
        dsimp only at hkq0 hkqall
        obtain ⟨q0, qtl, hkq⟩ := List.exists_cons_of_ne_nil hkq0
        have hq0n : isNameChar q0 = true := by
          rw [hkq] at hkqall
          exact all_mem_of_all hkqall q0 (by simp)
        have hshape : ((((kq, vq) :: etl).map fieldStr).flatten ++ ' ' :: '}' :: Rtail)
            = ' ' :: (q0 :: (qtl ++ ':' :: ' ' :: '"' ::
              (vq ++ '"' :: ((etl.map fieldStr).flatten ++ ' ' :: '}' :: Rtail)))) := by
          rw [hkq]
          simp [fieldStr, List.append_assoc]
        rw [hshape]
        rw [List.dropWhile_cons_of_pos (show wsOrBrace ' ' = true by decide),
          List.dropWhile_cons_of_neg (show ¬ wsOrBrace q0 = true by
            have h1 : rustWs q0 = false := isNameChar_not_ws hq0n
            have h2 : (q0 == '{') = false := isNameChar_ne hq0n (by decide)
            simp [wsOrBrace, h1, h2]),
          List.dropWhile_cons_of_neg (show ¬ rustWs q0 = true by
            simp [isNameChar_not_ws hq0n]),
          List.dropWhile_cons_of_pos (show rustWs ' ' = true by decide),
          List.dropWhile_cons_of_neg (show ¬ rustWs q0 = true by
            simp [isNameChar_not_ws hq0n])]
    have htr : parseBody (List.dropWhile wsOrBrace (F ++ ' ' :: '}' :: Rtail))
        (Token.new t.name) = (roundTok os t, Rtail) := by
      refine (parseBody_congr_ws hwseq _).trans ?_
      rw [show F ++ ' ' :: '}' :: Rtail = F ++ ' ' :: '}' :: Rtail from rfl, hF]
      exact parseBody_serialized (emitPairs os t) hpairs Rtail (Token.new t.name)
    rw [hnm] at htr
    rw [htr]
    have hhead : List.dropWhile wsOrBrace
        (List.dropWhile isNameChar (t.name ++ ' ' :: '{' :: (F ++ [' ', '}']) ++ Rtail))
        = List.dropWhile wsOrBrace (F ++ ' ' :: '}' :: Rtail) := by
      rw [hnm]
      have hb2 := takeWhile_append_boundary (p := isNameChar) (n0 :: ntl) ' '
        ('{' :: (F ++ [' ', '}'] ++ Rtail)) (all_mem_of_all hnall) (by decide)
      simp only [List.cons_append, List.append_assoc] at hb2 ⊢
      rw [hb2.2]
      rw [List.dropWhile_cons_of_pos (by decide), List.dropWhile_cons_of_pos (by decide)]
      simp [List.append_assoc]
    rw [hnm] at hhead
    rw [hhead, htr]

/-- A serialization (followed by anything) starts with a name character, so
leading-whitespace skipping leaves it unchanged. -/
lemma serialization_head (os : Orders) (t : Token) (hn : GoodName t.name)
    (X : List Char) :
    (t.toStringWithOrder os ++ X).dropWhile rustWs = t.toStringWithOrder os ++ X := by
  obtain ⟨hne, hall⟩ := hn
  obtain ⟨m0, mtl, hm⟩ := List.exists_cons_of_ne_nil hne
  have hm0 : isNameChar m0 = true := by
    rw [hm] at hall
    exact all_mem_of_all hall m0 (by simp)
  have hsh : t.toStringWithOrder os ++ X = m0 :: (mtl ++ ' ' :: '{' ::
      (((emitPairs os t).map fieldStr).flatten ++ [' ', '}'] ++ X)) := by
    unfold Token.toStringWithOrder
    rw [hm]
    simp [List.append_assoc]
  rw [hsh, List.dropWhile_cons_of_neg (show ¬ rustWs m0 = true by
    simp [isNameChar_not_ws hm0])]

/-- Parsing the space-join of serialized tokens yields their round-trips. -/
lemma parseLoop_serialized : ∀ (ts : List Token) (os : Orders),
    (∀ t ∈ ts, GoodSer os t) → ts ≠ [] →
    ∀ (pos : Nat) (cs : List Char),
      cs.dropWhile rustWs = joinSp (ts.map (fun u => u.toStringWithOrder os)) →
      parseLoop pos cs = .ok (ts.map (roundTok os)) := by
  intro ts
  induction ts with
  | nil =>
    intro os h hne
    exact absurd rfl hne
  | cons t tl ih =>
    intro os h hne pos cs hdw
    have hser := h t (by simp)
    cases tl with
    | nil =>
      have hdw2 : cs.dropWhile rustWs = t.toStringWithOrder os ++ [] := by
        rw [hdw]
        simp [joinSp]
      rw [parseLoop_step os t hser pos cs [] hdw2, parseLoop_nil]
      rfl
    | cons t2 tl2 =>
      have hdw2 : cs.dropWhile rustWs = t.toStringWithOrder os ++
          (' ' :: joinSp ((t2 :: tl2).map (fun u => u.toStringWithOrder os))) := by
        rw [hdw]
        simp [joinSp]
      rw [parseLoop_step os t hser pos cs _ hdw2]
      have hrec := ih os (fun u hu => h u (by simp [hu])) (by simp) (pos + (cs.length -
          (parseBody ((List.dropWhile wsOrBrace (List.dropWhile isNameChar
            (t.name ++ ' ' :: '{' :: (((emitPairs os t).map fieldStr).flatten ++ [' ', '}'])
            ++ ' ' :: joinSp ((t2 :: tl2).map (fun u => u.toStringWithOrder os))))))
            (Token.new t.name)).2.length))
        (' ' :: joinSp ((t2 :: tl2).map (fun u => u.toStringWithOrder os)))
        (by
          rw [List.dropWhile_cons_of_pos (show rustWs ' ' = true by decide)]
          rw [List.map_cons, joinSp_cons]
          exact serialization_head os t2 (h t2 (by simp)).1 _)
      rw [hrec]
      rfl

/-! ## Claim C7: assembly -/

lemma lookupO_mem : ∀ {os : Orders} {n : Str} {d : List Str},
    lookupO os n = some d → (n, d) ∈ os := by
  intro os
  induction os with
  | nil => intro n d h; simp [lookupO] at h
  | cons p tl ih =>
    intro n d h
    obtain ⟨a, b⟩ := p
    simp only [lookupO] at h
    by_cases han : a = n
    · rw [if_pos han] at h
      injection h with hbd
      subst han
      subst hbd
      exact List.mem_cons_self _ _
    · rw [if_neg han] at h
      exact List.mem_cons_of_mem _ (ih h)

lemma ordersGood_tables (lang : Language) (op : Operator) :
    OrdersGood (TokenParser.newOrders lang op) := by
  cases lang <;> cases op <;> decide

/-- A parsed token with serializable values serializes to reparseable text. -/
lemma goodSer_of_parsed (os : Orders) (t : Token)
    (hg : GoodName t.name ∧ GoodKeys t ∧ TokenInv t) (hords : OrdersGood os)
    (hvals : ∀ p ∈ t.members, scanEnd p.2 false = some false) :
    GoodSer os t := by
  refine ⟨hg.1, ?_⟩
  intro p hp
  obtain ⟨k, v⟩ := p
  rw [mem_emitPairs] at hp
  constructor
  · show GoodName k
    have hcases : chosenOrder os t = t.order ∨
        ∃ d, lookupO os t.name = some d ∧ chosenOrder os t = d := by
      unfold chosenOrder
      cases hlo : lookupO os t.name with
      | none => exact Or.inl rfl
      | some d =>
        by_cases hpo : lookupM t.members (str "preserve_order") ≠ some (str "true")
        · exact Or.inr ⟨d, rfl, by
            show (if lookupM t.members (str "preserve_order") ≠ some (str "true") then d
              else t.order) = d
            rw [if_pos hpo]⟩
        · exact Or.inl (by
            show (if lookupM t.members (str "preserve_order") ≠ some (str "true") then d
              else t.order) = t.order
            rw [if_neg hpo])
    rcases hcases with hch | ⟨d, hlo, hch⟩
    · rw [hch] at hp
      exact hg.2.1 k hp.1
    · rw [hch] at hp
      exact hords (t.name, d) (lookupO_mem hlo) k hp.1
  · exact hvals (k, v) (lookupM_mem hp.2)

/-- Claim C7 counterexample: an unterminated value ending in a backslash
breaks idempotence.  The input parses to a `date` token (whose entity type
has a canonical entry in the Chinese TN table), but its serialization
re-parses differently, so the second reorder output differs from the first. -/
theorem reorder_not_idempotent_counterexample :
    TokenParser.reorder (TokenParser.newOrders .zh .tn) "date \x7b year: \"a\\" =
      .ok "date \x7b year: \"a\\\" \x7d" ∧
    TokenParser.reorder (TokenParser.newOrders .zh .tn) "date \x7b year: \"a\\\" \x7d" =
      .ok "date \x7b year: \"a\\\" \x7d\" \x7d" ∧
    (lookupO (TokenParser.newOrders .zh .tn) (str "date")).isSome = true ∧
    decide (("date \x7b year: \"a\\\" \x7d" : String) =
      "date \x7b year: \"a\\\" \x7d\" \x7d") = false := by decide

/-- Claim C7 (amended): reorder is idempotent on token text whose entity
types have canonical entries, provided no parsed field value ends inside an
unterminated escape (a dangling backslash at end of input): if the text
parses and every member value's scan ends outside an escape, then reordering
the reordered text reproduces it. -/
theorem reorder_idempotent_amended (lang : Language) (op : Operator) (input u : String)
    (ts : List Token)
    (hbrace : (str input).contains '{' = true)
    (hparse : parseChars (str input) = .ok ts)
    (hvals : ∀ t ∈ ts, ∀ p ∈ t.members, scanEnd p.2 false = some false)
    (hentries : ∀ t ∈ ts, (lookupO (TokenParser.newOrders lang op) t.name).isSome = true)
    (hre : TokenParser.reorder (TokenParser.newOrders lang op) input = .ok u) :
    TokenParser.reorder (TokenParser.newOrders lang op) u = .ok u := by
  set os := TokenParser.newOrders lang op with hos
  have hmem : '{' ∈ str input := by simpa using hbrace
  have htrim : (rustTrim (str input)).isEmpty = false :=
    rustTrim_nonempty_of_mem hmem (by decide)
  have hu : u = ⟨joinSp (ts.map (fun t => t.toStringWithOrder os))⟩ := by
    unfold TokenParser.reorder at hre
    rw [if_neg (by simp [htrim]), if_neg (by simp [hmem]), hparse] at hre
    injection hre with h
    exact h.symm
  have hgood : ∀ t ∈ ts, GoodName t.name ∧ GoodKeys t ∧ TokenInv t :=
    parseLoop_invariants (str input).length 0 (str input) (Nat.le_refl _) ts hparse
  have hser : ∀ t ∈ ts, GoodSer os t := fun t ht =>
    goodSer_of_parsed os t (hgood t ht) (hos ▸ ordersGood_tables lang op) (hvals t ht)
  cases hts : ts with
  | nil =>
    have hu0 : u = "" := by
      rw [hu, hts]
      rfl
    rw [hu0]
    unfold TokenParser.reorder
    rw [if_pos (by decide)]
  | cons t0 tl =>
    have hjoin : str u = joinSp (ts.map (fun t => t.toStringWithOrder os)) := by
      rw [hu]
      rfl
    have hn0 : GoodName t0.name := (hser t0 (by rw [hts]; simp)).1
    obtain ⟨m0, mtl, hm⟩ := List.exists_cons_of_ne_nil hn0.1
    have hm0 : isNameChar m0 = true := by
      have := hn0.2
      rw [hm] at this
      exact all_mem_of_all this m0 (by simp)
    have hshape : str u = m0 :: (mtl ++ ' ' :: '{' ::
        (((emitPairs os t0).map fieldStr).flatten ++ [' ', '}'] ++
          (match tl.map (fun t => t.toStringWithOrder os) with
           | [] => []
           | _ :: _ => ' ' :: joinSp (tl.map (fun t => t.toStringWithOrder os))))) := by
      rw [hjoin, hts, List.map_cons, joinSp_cons]
      unfold Token.toStringWithOrder
      rw [hm]
      simp [List.append_assoc]
    have ha : (rustTrim (str u)).isEmpty = false := by
      apply rustTrim_nonempty_of_mem (c := m0)
      · rw [hshape]
        exact List.mem_cons_self _ _
      · exact isNameChar_not_ws hm0
    have hbm : '{' ∈ str u := by
      rw [hshape]
      exact List.mem_cons_of_mem _ (List.mem_append_right _
        (List.mem_cons_of_mem _ (List.mem_cons_self _ _)))
    have hc : parseChars (str u) = .ok (ts.map (roundTok os)) := by
      apply parseLoop_serialized ts os hser (by rw [hts]; simp) 0 (str u)
      rw [hjoin, hts, List.map_cons, joinSp_cons]
      exact serialization_head os t0 hn0 _
    have hd : (ts.map (roundTok os)).map (fun t => t.toStringWithOrder os) =
        ts.map (fun t => t.toStringWithOrder os) := by
      rw [List.map_map]
      apply List.map_congr_left
      intro t ht
      exact toStringWithOrder_roundTok os t (hgood t ht).2.2
    unfold TokenParser.reorder
    rw [if_neg (by simp [ha]), if_neg (by simp [hbm]), hc]
    rw [show (match (Except.ok (ts.map (roundTok os)) : Except WErr (List Token)) with
      | Except.ok tokens =>
        (Except.ok ⟨joinSp (tokens.map (fun t => t.toStringWithOrder os))⟩ :
          Except WErr String)
      | Except.error e => Except.ok u) =
      Except.ok ⟨joinSp ((ts.map (roundTok os)).map (fun t => t.toStringWithOrder os))⟩
      from rfl]
    rw [hd, ← hjoin]
    rfl

theorem reorder_idempotent_amended_witness :
    TokenParser.reorder (TokenParser.newOrders .zh .tn)
      "time \x7b hour: \"3\" minute: \"30\" \x7d" =
      .ok "time \x7b hour: \"3\" minute: \"30\" \x7d" :=
  reorder_idempotent_amended .zh .tn "time \x7b hour: \"3\" minute: \"30\" \x7d"
    "time \x7b hour: \"3\" minute: \"30\" \x7d"
    [⟨str "time", [str "hour", str "minute"],
      [(str "minute", str "30"), (str "hour", str "3")]⟩]
    (by decide) (by decide) (by decide) (by decide) (by decide)

end WeText
